import Mathlib

/-!
Verification development for `bloat.py`: a memory-hard key-stretching
primitive with four entry points (`bloat`, `crazybloat`, `multibloat`,
`iterations_to_memory` / `memory_to_iterations`).

Bytes are modelled as `Nat` (a digest is a `List Nat`); the abstract hash
provider (`hashfunc` in the source) is a structure with an `init` seeding a
fresh state with a key, an incremental `update`, a non-destructive `digest`
read and a `digestSize`.  Fallible computations (`struct.unpack` demands
exactly 8 bytes; `multiprocessing.Pool` rejects a worker count below one)
return `Option`.
-/

/-- Abstract model of the `hashfunc` collaborator: `init key` is
`hashfunc(key)`, `update` is `h.update(data)` returning the new state,
`digest` is the non-destructive `h.digest()`, and `digestSize` is the
`digest_size` attribute. -/
structure HashProvider (σ : Type) where
  init : List Nat → σ
  update : σ → List Nat → σ
  digest : σ → List Nat
  digestSize : Nat

/-- Value of a byte string read as a big-endian unsigned integer. -/
def beU64 (bs : List Nat) : Nat :=
  bs.foldl (fun acc b => acc * 256 + b) 0

/-- `unpack("!Q", bs)`: requires exactly 8 bytes, else `struct.error`. -/
def unpackQ (bs : List Nat) : Option Nat :=
  if bs.length = 8 then some (beU64 bs) else none

/-- One loop body of `bloat` at iteration index `c`, acting on the hash
state `h` and the chain table `a`:
`a.append(h.digest())`;
`random_pos = unpack("!Q", a[-1][:8])[0] % (c+1)`;
`h.update(a[random_pos])`.  The just-appended `a[-1]` is `H.digest h`. -/
def bloatStep {σ : Type} (H : HashProvider σ) (c : Nat) (h : σ)
    (a : List (List Nat)) : Option (σ × List (List Nat)) :=
  let a1 := a ++ [H.digest h]
  match unpackQ ((H.digest h).take 8) with
  | none => none
  | some r => some (H.update h (a1.getD (r % (c + 1)) []), a1)

/-- State `(h, a)` of the `bloat` loop after `n` completed iterations,
starting from `h = hashfunc(key)` and `a = []`. -/
def bloatIter {σ : Type} (H : HashProvider σ) (key : List Nat) :
    Nat → Option (σ × List (List Nat))
  | 0 => some (H.init key, [])
  | c + 1 =>
    match bloatIter H key c with
    | none => none
    | some (h, a) => bloatStep H c h a

/-- `bloat(key, iterations, hashfunc)`: run the loop `iterations` times and
return the final `h.digest()`. -/
def bloat {σ : Type} (H : HashProvider σ) (key : List Nat)
    (iterations : Nat) : Option (List Nat) :=
  (bloatIter H key iterations).map fun s => H.digest s.1

/-- Hash state of `crazybloat(key, n, hashfunc)` after its `n` loop steps.
Each step reads `random_pos` from the first 8 bytes of the current digest
modulo `c+1` and updates with `crazybloat(key, random_pos, hashfunc)`,
i.e. with the digest of this very state function at `random_pos`. -/
def crazyState {σ : Type} (H : HashProvider σ) (key : List Nat) :
    Nat → Option σ
  | 0 => some (H.init key)
  | c + 1 =>
    match crazyState H key c with
    | none => none
    | some h =>
      match unpackQ ((H.digest h).take 8) with
      | none => none
      | some r =>
        match crazyState H key (r % (c + 1)) with
        | none => none
        | some h2 => some (H.update h (H.digest h2))
termination_by n => n
decreasing_by
  · exact Nat.lt_succ_self c
  · exact Nat.lt_succ_of_le (Nat.le_of_lt_succ (Nat.mod_lt _ (Nat.succ_pos c)))

/-- `crazybloat(key, iterations, hashfunc)`: the final `hasher.digest()`. -/
def crazybloat {σ : Type} (H : HashProvider σ) (key : List Nat)
    (iterations : Nat) : Option (List Nat) :=
  (crazyState H key iterations).map H.digest

/-- ASCII bytes of `str(x)` for a non-negative integer: decimal digits,
no leading zeros, `"0"` for zero. -/
def decimalASCII (x : Nat) : List Nat :=
  if _h : x < 10 then [48 + x]
  else decimalASCII (x / 10) ++ [48 + x % 10]
termination_by x
decreasing_by exact Nat.div_lt_self (by omega) (by omega)

/-- `multibloat(key, iterations, hashfunc, processes)`.  The guard models
`multiprocessing.Pool(processes=p)`, which raises
`ValueError("Number of processes must be at least 1")` for `p < 1` before
any stream runs.  Sub-keys are `hashfunc(key + str(x)).digest()` for
`x in xrange(processes)`; `pool.imap` preserves argument order, so the
digests are concatenated in ascending stream index and hashed once. -/
def multibloat {σ : Type} (H : HashProvider σ) (key : List Nat)
    (iterations streams : Nat) : Option (List Nat) :=
  if streams < 1 then none
  else
    let keys := (List.range streams).map fun x =>
      H.digest (H.init (key ++ decimalASCII x))
    match keys.mapM (fun k => bloat H k iterations) with
    | none => none
    | some ds => some (H.digest (H.init ds.flatten))

/-- `iterations_to_memory(iterations, hashfunc)`:
`hashfunc().digest_size * iterations` (Python ints, so over `Int`). -/
def iterations_to_memory {σ : Type} (H : HashProvider σ)
    (iterations : Int) : Int :=
  (H.digestSize : Int) * iterations

/-- `memory_to_iterations(memory, hashfunc)`:
`memory / hashfunc().digest_size` with Python 2 integer division,
which floors (`Int.fdiv`). -/
def memory_to_iterations {σ : Type} (H : HashProvider σ)
    (memory : Int) : Int :=
  Int.fdiv memory (H.digestSize : Int)

/-- A concrete hash provider used to witness satisfiability of the
theorems' hypotheses: the state accumulates all absorbed bytes and the
digest is 8 bytes derived from the accumulated length. -/
def toyHash : HashProvider (List Nat) where
  init key := key
  update s d := s ++ d
  digest s := (List.range 8).map fun i => (s.length + i) % 256
  digestSize := 8

/-- The spec's rendering of the `bloat` loop (section 4.1, steps 3a-3d),
written from the spec's words: with `k` iterations left at iteration index
`c`, append `h.digest()` to `a` so that it becomes `a[c]`, read the first
8 bytes of `a[c]` as a big-endian unsigned 64-bit integer `r`, set
`random_pos = r mod (c + 1)`, and update `h` with `a[random_pos]`; when no
iterations are left, return `h.digest()` (step 4). -/
def bloatSpecGo {σ : Type} (H : HashProvider σ) :
    Nat → σ → List (List Nat) → Nat → Option (List Nat)
  | 0, h, _, _ => some (H.digest h)
  | k + 1, h, a, c =>
    let a1 := a ++ [H.digest h]
    match unpackQ ((a1.getD c []).take 8) with
    | none => none
    | some r =>
      bloatSpecGo H k (H.update h (a1.getD (r % (c + 1)) [])) a1 (c + 1)

/-- The spec's `bloat` algorithm: seed the hash state with the key, start
from an empty chain table at iteration index 0, and loop. -/
def bloatSpec {σ : Type} (H : HashProvider σ) (key : List Nat)
    (iterations : Nat) : Option (List Nat) :=
  bloatSpecGo H iterations (H.init key) [] 0

/-- The spec's sub-key derivation for `multibloat` (section 4.3, step 1):
a single hash application over the raw key bytes followed by the ASCII
decimal digits of the stream index. -/
def subkeySpec {σ : Type} (H : HashProvider σ) (key : List Nat)
    (x : Nat) : List Nat :=
  H.digest (H.init (key ++ decimalASCII x))

/-- The spec's `multibloat` algorithm (section 4.3): run `bloat` on each
derived sub-key for stream indices `0, 1, ..., streams - 1` in ascending
order, concatenate the resulting digests in stream-index order, and hash
the concatenation once. -/
def multibloatSpec {σ : Type} (H : HashProvider σ) (key : List Nat)
    (iterations streams : Nat) : Option (List Nat) :=
  ((List.range streams).mapM fun x =>
      bloat H (subkeySpec H key x) iterations).map
    fun ds => H.digest (H.init ds.flatten)

/-- Fuel-bounded variant of `crazyState`: the loop over `c` consumes no
fuel, while each nested recursive invocation (the recomputation of a table
entry) consumes one unit of fuel and runs with the remainder.  Running out
of fuel yields `none`. -/
def crazyStateF {σ : Type} (H : HashProvider σ) (key : List Nat) :
    Nat → Nat → Option σ
  | _, 0 => some (H.init key)
  | 0, c + 1 =>
    match crazyStateF H key 0 c with
    | none => none
    | some h =>
      match unpackQ ((H.digest h).take 8) with
      | none => none
      | some _ => none
  | f + 1, c + 1 =>
    match crazyStateF H key (f + 1) c with
    | none => none
    | some h =>
      match unpackQ ((H.digest h).take 8) with
      | none => none
      | some r =>
        match crazyStateF H key f (r % (c + 1)) with
        | none => none
        | some h2 => some (H.update h (H.digest h2))
termination_by fuel c => (fuel, c)

/-! ### Helper lemmas about the `bloat` loop -/

/-- The chain table holds one entry per completed iteration. -/
theorem bloatIter_length {σ : Type} (H : HashProvider σ) (key : List Nat) :
    ∀ n h a, bloatIter H key n = some (h, a) → a.length = n := by
  intro n
  induction n with
  | zero =>
    intro h a hs
    simp only [bloatIter] at hs
    obtain ⟨-, rfl⟩ := Prod.mk.injEq .. ▸ Option.some.injEq .. ▸ hs
    rfl
  | succ c ih =>
    intro h a hs
    simp only [bloatIter] at hs
    cases hb : bloatIter H key c with
    | none => rw [hb] at hs; cases hs
    | some s =>
      obtain ⟨h0, a0⟩ := s
      rw [hb] at hs
      simp only [bloatStep] at hs
      cases hu : unpackQ ((H.digest h0).take 8) with
      | none => rw [hu] at hs; cases hs
      | some r =>
        rw [hu] at hs
        obtain ⟨-, rfl⟩ := Prod.mk.injEq .. ▸ Option.some.injEq .. ▸ hs
        have := ih h0 a0 hb
        simp [this]

/-- If the loop completed `n+1` iterations it completed the first `n`. -/
theorem bloatIter_succ_some {σ : Type} (H : HashProvider σ) (key : List Nat)
    (n : Nat) (s : σ × List (List Nat))
    (hs : bloatIter H key (n + 1) = some s) :
    ∃ s0, bloatIter H key n = some s0 := by
  simp only [bloatIter] at hs
  cases hb : bloatIter H key n with
  | none => rw [hb] at hs; cases hs
  | some s0 => exact ⟨s0, rfl⟩

/-- If the loop completed `n` iterations it completed any prefix. -/
theorem bloatIter_prefix {σ : Type} (H : HashProvider σ) (key : List Nat) :
    ∀ n m, m ≤ n → ∀ s, bloatIter H key n = some s →
      ∃ s0, bloatIter H key m = some s0 := by
  intro n
  induction n with
  | zero =>
    intro m hm s hs
    exact ⟨s, Nat.le_zero.mp hm ▸ hs⟩
  | succ c ih =>
    intro m hm s hs
    rcases Nat.lt_succ_iff_lt_or_eq.mp (Nat.lt_succ_of_le hm) with hlt | rfl
    · obtain ⟨s0, hs0⟩ := bloatIter_succ_some H key c s hs
      exact ih m (Nat.le_of_lt_succ hlt) s0 hs0
    · exact ⟨s, hs⟩

/-- Table entry `i` of a run that reached iteration `n` is the digest the
run recorded when it reached iteration `i`. -/
theorem bloatIter_getD {σ : Type} (H : HashProvider σ) (key : List Nat) :
    ∀ n h a, bloatIter H key n = some (h, a) →
      ∀ i hi ai, i < n → bloatIter H key i = some (hi, ai) →
        a.getD i [] = H.digest hi := by
  intro n
  induction n with
  | zero =>
    intro h a _ i hi ai hilt
    exact absurd hilt (Nat.not_lt_zero i)
  | succ c ih =>
    intro h a hs i hi ai hilt hib
    simp only [bloatIter] at hs
    cases hb : bloatIter H key c with
    | none => rw [hb] at hs; cases hs
    | some s =>
      obtain ⟨h0, a0⟩ := s
      rw [hb] at hs
      simp only [bloatStep] at hs
      cases hu : unpackQ ((H.digest h0).take 8) with
      | none => rw [hu] at hs; cases hs
      | some r =>
        rw [hu] at hs
        obtain ⟨-, rfl⟩ := Prod.mk.injEq .. ▸ Option.some.injEq .. ▸ hs
        have hlen := bloatIter_length H key c h0 a0 hb
        rcases Nat.lt_succ_iff_lt_or_eq.mp hilt with hlt | rfl
        · rw [List.getD_append _ _ _ _ (by omega)]
          exact ih h0 a0 hb i hi ai hlt hib
        · rw [hb] at hib
          obtain ⟨rfl, rfl⟩ := Prod.mk.injEq .. ▸ Option.some.injEq .. ▸ hib
          rw [List.getD_append_right _ _ _ _ (by omega)]
          simp [hlen]

/-- The hash state of `crazybloat`'s recursion agrees, step by step, with
the hash state of `bloat`'s loop: the recomputed entry
`crazybloat(key, random_pos, hashfunc)` coincides with the stored table
entry `a[random_pos]`. -/
theorem crazyState_eq_bloatIter {σ : Type} (H : HashProvider σ)
    (key : List Nat) :
    ∀ n, crazyState H key n = (bloatIter H key n).map Prod.fst := by
  intro n
  induction n using Nat.strong_induction_on with
  | _ n ih =>
    match n with
    | 0 => simp [crazyState, bloatIter]
    | c + 1 =>
      rw [crazyState]
      cases hb : bloatIter H key c with
      | none =>
        have hc := ih c (Nat.lt_succ_self c)
        rw [hb] at hc
        rw [hc]
        simp only [bloatIter, hb]
        rfl
      | some s =>
        obtain ⟨h, a⟩ := s
        have hc := ih c (Nat.lt_succ_self c)
        rw [hb] at hc
        simp only [Option.map_some'] at hc
        rw [hc]
        simp only []
        cases hu : unpackQ ((H.digest h).take 8) with
        | none =>
          simp only [bloatIter, hb, bloatStep, hu]
          rfl
        | some r =>
          dsimp only
          have hrp : r % (c + 1) < c + 1 := Nat.mod_lt _ (Nat.succ_pos c)
          obtain ⟨s0, hs0⟩ :=
            bloatIter_prefix H key c (r % (c + 1)) (Nat.le_of_lt_succ hrp)
              (h, a) hb
          obtain ⟨h2, a2⟩ := s0
          have hrec := ih (r % (c + 1)) hrp
          rw [hs0] at hrec
          simp only [Option.map_some'] at hrec
          rw [hrec]
          have hgd : (a ++ [H.digest h]).getD (r % (c + 1)) [] =
              H.digest h2 := by
            apply bloatIter_getD H key (c + 1) (H.update h
              ((a ++ [H.digest h]).getD (r % (c + 1)) []))
              (a ++ [H.digest h]) ?_ (r % (c + 1)) h2 a2 hrp hs0
            simp only [bloatIter, hb, bloatStep, hu]
          simp only [bloatIter, hb, bloatStep, hu, hgd, Option.map_some']

/-- The spec-side loop, started from a state the code-side loop reached
after `c` iterations, computes exactly what the code-side loop computes
`k` iterations later. -/
theorem bloatSpecGo_eq_bloatIter {σ : Type} (H : HashProvider σ)
    (key : List Nat) :
    ∀ k c h a, bloatIter H key c = some (h, a) →
      bloatSpecGo H k h a c =
        (bloatIter H key (c + k)).map fun s => H.digest s.1 := by
  intro k
  induction k with
  | zero =>
    intro c h a hs
    simp [bloatSpecGo, hs]
  | succ k ih =>
    intro c h a hs
    have hlen := bloatIter_length H key c h a hs
    have hgc : (a ++ [H.digest h]).getD c [] = H.digest h := by
      rw [List.getD_append_right _ _ _ _ (by omega)]
      simp [hlen]
    simp only [bloatSpecGo, hgc]
    cases hu : unpackQ ((H.digest h).take 8) with
    | none =>
      have hnone : bloatIter H key (c + 1) = none := by
        simp only [bloatIter, hs, bloatStep, hu]
      cases hfin : bloatIter H key (c + (k + 1)) with
      | none => rfl
      | some s =>
        obtain ⟨s0, hs0⟩ :=
          bloatIter_prefix H key (c + (k + 1)) (c + 1) (by omega) s hfin
        rw [hnone] at hs0
        cases hs0
    | some r =>
      have hnext : bloatIter H key (c + 1) =
          some (H.update h ((a ++ [H.digest h]).getD (r % (c + 1)) []),
            a ++ [H.digest h]) := by
        simp only [bloatIter, hs, bloatStep, hu]
      have := ih (c + 1) _ _ hnext
      dsimp only at this ⊢
      rw [show c + (k + 1) = (c + 1) + k by omega]
      exact this

/-- `mapM` over `Option` after a `map` fuses into one `mapM`. -/
theorem mapM_map_option {α β γ : Type} (g : α → β) (f : β → Option γ)
    (l : List α) :
    (l.map g).mapM f = l.mapM fun x => f (g x) := by
  rw [← List.mapM'_eq_mapM, ← List.mapM'_eq_mapM]
  induction l with
  | nil => rfl
  | cons x xs ih => simp [List.mapM', ih]

/-- Fuel at least the iteration count is enough: the fuel-bounded crazy
recursion agrees with the unbounded one, because every nested invocation
at loop index `c` receives an argument `r % (c+1) ≤ c`, strictly below
the caller's iteration count. -/
theorem crazyStateF_eq_crazyState {σ : Type} (H : HashProvider σ)
    (key : List Nat) :
    ∀ c fuel, c ≤ fuel → crazyStateF H key fuel c = crazyState H key c := by
  intro c
  induction c using Nat.strong_induction_on with
  | _ c ih =>
    match c with
    | 0 =>
      intro fuel _
      rw [crazyStateF, crazyState]
    | k + 1 =>
      intro fuel hcf
      cases fuel with
      | zero => exact absurd hcf (by omega)
      | succ f =>
        rw [crazyStateF, crazyState]
        rw [ih k (Nat.lt_succ_self k) (f + 1) (by omega)]
        cases hk : crazyState H key k with
        | none => rfl
        | some h =>
          dsimp only
          cases hu : unpackQ ((H.digest h).take 8) with
          | none => rfl
          | some r =>
            dsimp only
            have hm : r % (k + 1) < k + 1 := Nat.mod_lt _ (Nat.succ_pos k)
            rw [ih (r % (k + 1)) hm f (by omega)]

/-! ### Claim theorems -/

/-- C1 (counterexample): the claimed existence of inputs on which
`crazybloat` and `bloat` disagree is false — the recursive variant is
bit-identical to the table-based one on every key, iteration count and
hash provider. -/
theorem crazybloat_not_identical_refuted :
    ¬ ∃ (σ : Type) (H : HashProvider σ) (key : List Nat) (n : Nat),
      1 ≤ n ∧ crazybloat H key n ≠ bloat H key n := by
  rintro ⟨σ, H, key, n, -, hne⟩
  apply hne
  unfold crazybloat bloat
  rw [crazyState_eq_bloatIter]
  cases bloatIter H key n <;> rfl

/-- C1 (amended): `crazybloat(key, n, hashfunc)` returns exactly
`bloat(key, n, hashfunc)` — same D-byte shape and same bits — for every
key, iteration count and hash provider; it is a drop-in replacement that
recomputes chain entries instead of storing them. -/
theorem crazybloat_bitidentical_bloat (σ : Type) (H : HashProvider σ)
    (key : List Nat) (n : Nat) :
    crazybloat H key n = bloat H key n := by
  unfold crazybloat bloat
  rw [crazyState_eq_bloatIter]
  cases bloatIter H key n <;> rfl

/-- C2 (counterexample): on a concrete key and provider,
`bloat(key, 0, H)` does not fail — it returns the seed digest
`H(key).digest()`. -/
theorem bloat_zero_error_refuted :
    bloat toyHash [116, 101, 115, 116] 0 =
      some (toyHash.digest (toyHash.init [116, 101, 115, 116])) := rfl

/-- C2 (amended): for every key and hash provider,
`bloat(key, 0, hashfunc)` performs no validation and returns the seed
digest `hashfunc(key).digest()` instead of signalling InvalidParameter. -/
theorem bloat_zero_returns_seed (σ : Type) (H : HashProvider σ)
    (key : List Nat) :
    bloat H key 0 = some (H.digest (H.init key)) := rfl

/-- C9: for every key, iteration count and hash provider,
`multibloat(key, iterations, hashfunc, 0)` signals an error (the
`Pool(processes=0)` constructor rejects a worker count below one) rather
than returning a digest. -/
theorem multibloat_zero_streams_errors (σ : Type) (H : HashProvider σ)
    (key : List Nat) (iterations : Nat) :
    multibloat H key iterations 0 = none := rfl

/-- C10: `crazybloat` terminates with recursion depth bounded by the
iteration count: granting each nested recursive invocation one unit from
a fuel budget of `iterations` already reproduces the unbounded recursion,
because every invocation at loop index `c` passes on
`random_pos = r % (c+1) ≤ c`, strictly below its own iteration count. -/
theorem crazybloat_recursion_depth_bounded (σ : Type) (H : HashProvider σ)
    (key : List Nat) (iterations fuel : Nat) (hf : iterations ≤ fuel) :
    (crazyStateF H key fuel iterations).map H.digest =
      crazybloat H key iterations := by
  unfold crazybloat
  rw [crazyStateF_eq_crazyState H key iterations fuel hf]

/-- C10 witness: the depth bound instantiated at fuel = iterations = 2 on
the concrete provider. -/
theorem crazybloat_recursion_depth_bounded_witness :
    (crazyStateF toyHash [7] 2 2).map toyHash.digest =
      crazybloat toyHash [7] 2 :=
  crazybloat_recursion_depth_bounded (List Nat) toyHash [7] 2 2 (by decide)

/-- C3: for every key, every `iterations >= 1`, and every hash provider
whose digests are at least 8 bytes, `bloat` computes exactly the spec's
algorithm: seed with the key, and at each iteration `c` append the current
digest as `a[c]`, read the first 8 bytes of `a[c]` as a big-endian
unsigned 64-bit integer, reduce it modulo `c + 1` to get `random_pos`,
update the state with `a[random_pos]`, and finally return the digest. -/
theorem bloat_matches_spec_algorithm (σ : Type) (H : HashProvider σ)
    (key : List Nat) (iterations : Nat) (hit : 1 ≤ iterations)
    (hlen : ∀ s, (H.digest s).length = H.digestSize)
    (hds : 8 ≤ H.digestSize) :
    bloat H key iterations = bloatSpec H key iterations := by
  unfold bloatSpec
  have h0 : bloatIter H key 0 = some (H.init key, []) := rfl
  have := bloatSpecGo_eq_bloatIter H key iterations 0 (H.init key) [] h0
  rw [this, Nat.zero_add]
  rfl

/-- C3 witness: the spec-equality instantiated on the concrete provider,
with all three hypotheses discharged. -/
theorem bloat_matches_spec_algorithm_witness :
    1 ≤ 2 ∧ 8 ≤ toyHash.digestSize ∧
      bloat toyHash [3, 1] 2 = bloatSpec toyHash [3, 1] 2 :=
  ⟨by decide, by decide,
    bloat_matches_spec_algorithm (List Nat) toyHash [3, 1] 2 (by decide)
      (fun s => by simp [toyHash]) (by decide)⟩

/-- C7: for every key and provider whose digests are at least 8 bytes,
`bloat(key, 1, H)` is the digest of the state obtained by seeding with the
key and updating exactly once with the seed digest `H(key).digest()`. -/
theorem bloat_single_iteration (σ : Type) (H : HashProvider σ)
    (key : List Nat) (hlen : ∀ s, (H.digest s).length = H.digestSize)
    (hds : 8 ≤ H.digestSize) :
    bloat H key 1 =
      some (H.digest (H.update (H.init key) (H.digest (H.init key)))) := by
  unfold bloat
  simp only [bloatIter, bloatStep]
  have h8 : ((H.digest (H.init key)).take 8).length = 8 := by
    rw [List.length_take, hlen]
    omega
  rw [unpackQ, if_pos h8]
  simp [Nat.mod_one]

/-- C7 witness: the single-iteration base case on the concrete provider. -/
theorem bloat_single_iteration_witness :
    8 ≤ toyHash.digestSize ∧
      bloat toyHash [9] 1 = some (toyHash.digest (toyHash.update
        (toyHash.init [9]) (toyHash.digest (toyHash.init [9])))) :=
  ⟨by decide, bloat_single_iteration (List Nat) toyHash [9]
    (fun s => by simp [toyHash]) (by decide)⟩

/-- C6: whenever a run of `bloat` reaches iteration `c` (state `h`, table
`a`), the table immediately after the append holds exactly `c + 1`
entries, and the random position derived from the unpacked value `r` is
at most `c` — a valid index, never out of range. -/
theorem chain_table_invariant (σ : Type) (H : HashProvider σ)
    (key : List Nat) (iterations c : Nat) (hc : c < iterations) (h : σ)
    (a : List (List Nat)) (hreach : bloatIter H key c = some (h, a))
    (r : Nat) (hr : unpackQ ((H.digest h).take 8) = some r) :
    (a ++ [H.digest h]).length = c + 1 ∧ r % (c + 1) ≤ c := by
  refine ⟨?_, Nat.le_of_lt_succ (Nat.mod_lt _ (Nat.succ_pos c))⟩
  have := bloatIter_length H key c h a hreach
  simp [this]

/-- C6 witness: the invariant at iteration 0 of a concrete run, with the
reached state and the unpacked index value computed explicitly. -/
theorem chain_table_invariant_witness :
    0 < 1 ∧
      (([] : List (List Nat)) ++
          [toyHash.digest (toyHash.init [5])]).length = 0 + 1 ∧
        beU64 [1, 2, 3, 4, 5, 6, 7, 8] % (0 + 1) ≤ 0 :=
  ⟨by decide,
    chain_table_invariant (List Nat) toyHash [5] 1 0 (by decide)
      (toyHash.init [5]) [] rfl (beU64 [1, 2, 3, 4, 5, 6, 7, 8])
      (by decide)⟩

/-- C4: for every key, `iterations >= 1`, hash provider and
`streams >= 1`, `multibloat` equals the spec's composition: hash the
concatenation, in ascending stream-index order starting at 0, of
`bloat(k_x, iterations, hashfunc)`, where `k_x` is a single hash
application over the raw key bytes followed by the ASCII decimal digits
of `x`. -/
theorem multibloat_matches_spec (σ : Type) (H : HashProvider σ)
    (key : List Nat) (iterations streams : Nat) (hit : 1 ≤ iterations)
    (hstr : 1 ≤ streams) :
    multibloat H key iterations streams =
      multibloatSpec H key iterations streams := by
  unfold multibloat multibloatSpec
  rw [if_neg (by omega)]
  dsimp only
  rw [mapM_map_option]
  simp only [subkeySpec]
  cases hm : (List.range streams).mapM
      (fun x => bloat H (H.digest (H.init (key ++ decimalASCII x)))
        iterations) with
  | none => rfl
  | some ds => rfl

/-- C4 witness: the spec-equality for two streams of one iteration each
on the concrete provider. -/
theorem multibloat_matches_spec_witness :
    1 ≤ 1 ∧ 1 ≤ 2 ∧
      multibloat toyHash [4] 1 2 = multibloatSpec toyHash [4] 1 2 :=
  ⟨by decide, by decide,
    multibloat_matches_spec (List Nat) toyHash [4] 1 2 (by decide)
      (by decide)⟩

/-- C5: with a positive digest size, `iterations_to_memory` multiplies by
the digest size, `memory_to_iterations` is the floor of the quotient by
the digest size (characterised by the two floor inequalities), and the
round trip `memory_to_iterations (iterations_to_memory n)` is the
identity on non-negative iteration counts. -/
theorem converter_roundtrip (σ : Type) (H : HashProvider σ)
    (hds : 0 < H.digestSize) :
    (∀ n : Nat, iterations_to_memory H (n : Int) =
        (n : Int) * (H.digestSize : Int)) ∧
    (∀ m : Int, (H.digestSize : Int) * memory_to_iterations H m ≤ m ∧
        m < (H.digestSize : Int) * (memory_to_iterations H m + 1)) ∧
    (∀ n : Nat, memory_to_iterations H (iterations_to_memory H (n : Int)) =
        (n : Int)) := by
  have hdpos : (0 : Int) < (H.digestSize : Int) := by exact_mod_cast hds
  have hd0 : (H.digestSize : Int) ≠ 0 := ne_of_gt hdpos
  refine ⟨fun n => by unfold iterations_to_memory; ring, fun m => ?_,
    fun n => ?_⟩
  · unfold memory_to_iterations
    rw [Int.fdiv_eq_ediv _ (le_of_lt hdpos)]
    have h1 := Int.emod_add_ediv m (H.digestSize : Int)
    have h2 := Int.emod_nonneg m hd0
    have h3 := Int.emod_lt_of_pos m hdpos
    constructor
    · linarith
    · rw [mul_add, mul_one]
      linarith
  · unfold memory_to_iterations iterations_to_memory
    exact Int.mul_fdiv_cancel_left _ hd0

/-- C5 witness: round trip at 3 iterations on the concrete provider. -/
theorem converter_roundtrip_witness :
    0 < toyHash.digestSize ∧
      memory_to_iterations toyHash (iterations_to_memory toyHash (3 : Int))
        = ((3 : Nat) : Int) :=
  ⟨by decide, (converter_roundtrip (List Nat) toyHash (by decide)).2.2 3⟩

/-- C8 (counterexample): negative arguments do not make the converters
fail — on the concrete provider (digest size 8) they return ordinary
negative numbers. -/
theorem converter_negative_error_refuted :
    iterations_to_memory toyHash (-1) = -8 ∧
      memory_to_iterations toyHash (-9) = -2 := by decide

/-- C8 (amended): the converters validate nothing and have no failure
path: a negative iteration count or memory amount flows through the
arithmetic and yields a negative result (product with the positive digest
size, respectively floor quotient by it). -/
theorem converter_negative_passthrough (σ : Type) (H : HashProvider σ)
    (n m : Int) (hds : 0 < H.digestSize) (hn : n < 0) (hm : m < 0) :
    iterations_to_memory H n < 0 ∧ memory_to_iterations H m < 0 := by
  have hdpos : (0 : Int) < (H.digestSize : Int) := by exact_mod_cast hds
  constructor
  · exact mul_neg_of_pos_of_neg hdpos hn
  · unfold memory_to_iterations
    rw [Int.fdiv_eq_ediv _ (le_of_lt hdpos)]
    exact Int.ediv_neg' hm hdpos

/-- C8 witness: the pass-through behaviour at -2 on the concrete
provider. -/
theorem converter_negative_passthrough_witness :
    iterations_to_memory toyHash (-2) < 0 ∧
      memory_to_iterations toyHash (-2) < 0 :=
  converter_negative_passthrough (List Nat) toyHash (-2) (-2) (by decide)
    (by decide) (by decide)
